import Mathlib

/-!
Shallow embedding of the overlap-detection, grouping and merge-resolution
engine of the Event-Collaboration service (`src/event/event.service.ts`),
together with proofs about the claims of its specification.

Times are modelled as `Int` (epoch milliseconds, the value `Date`
comparisons observe).  The TypeScript regular expressions of the title
compatibility filter are modelled by an executable word-boundary matcher
specialised to the exact pattern shapes occurring in the source
(`\b(alt|...)\b` and `\b(alt|...)\s+(alt|...)\b`, where `[- ]` character
classes inside an alternative are modelled by a separator atom).
-/

namespace EventCollab

/-- A user row (`user.entity.ts`): identity is by `id`. -/
structure User where
  id : String
  name : String
  email : String
deriving DecidableEq, Repr

/-- `EventStatus` enum of `event.entity.ts`. -/
inductive EventStatus
  | TODO
  | IN_PROGRESS
  | COMPLETED
  | CANCELED
deriving DecidableEq, Repr

/-- An event row (`event.entity.ts`).  The `creator` relation is eager and
always present on loaded entities, so it is modelled as a plain field (the
defensive `if (event.creator)` checks of the service are then always
taken). -/
structure Event where
  id : String
  title : String
  description : Option String
  status : EventStatus
  startTime : Int
  endTime : Int
  creator : User
  invitees : List User
  mergedFrom : Option (List String)
deriving DecidableEq, Repr

/-! ## Title compatibility filter (`areTitlesCompatible`, lines 541-596) -/

/-- One atom of a regex alternative: a literal character, or the `[- ]`
character class (dash or space). -/
inductive PatAtom
  | lit (c : Char)
  | sep
deriving DecidableEq, Repr

/-- Build an alternative from a compact string; `*` stands for the `[- ]`
character class. -/
def patOfString (s : String) : List PatAtom :=
  s.data.map fun c => if c = '*' then PatAtom.sep else PatAtom.lit c

/-- JavaScript regex word character (`\w`): ASCII letters, digits, `_`. -/
def isWordChar (c : Char) : Bool :=
  ('a' ≤ c && c ≤ 'z') || ('A' ≤ c && c ≤ 'Z') || ('0' ≤ c && c ≤ '9') || c = '_'

/-- Whitespace as matched by `\s` (the ASCII cases). -/
def isSpaceChar (c : Char) : Bool :=
  c = ' ' || c = '\t' || c = '\n' || c = '\r' || c = Char.ofNat 11 || c = Char.ofNat 12

/-- Match the atoms of one alternative at the head of `cs`, returning the
remaining characters on success. -/
def matchAtoms : List PatAtom → List Char → Option (List Char)
  | [], cs => some cs
  | _ :: _, [] => none
  | PatAtom.lit d :: as, c :: cs => if c = d then matchAtoms as cs else none
  | PatAtom.sep :: as, c :: cs =>
      if c = '-' || c = ' ' then matchAtoms as cs else none

/-- The `\b` boundary after a match whose last character is a word
character: end of input or a non-word character follows. -/
def atWordEnd : List Char → Bool
  | [] => true
  | c :: _ => !isWordChar c

/-- Does some alternative match at this position, followed by a `\b`
boundary?  (Every alternative in the source's rule table starts and ends
with a word character.) -/
def matchAltsAt (alts : List (List PatAtom)) (cs : List Char) : Bool :=
  alts.any fun alt =>
    match matchAtoms alt cs with
    | some rest => atWordEnd rest
    | none => false

/-- After the first group of a `\b(g1)\s+(g2)\b` pattern: consume one or
more whitespace characters, then match the second group with its trailing
boundary. -/
def matchSecondAfterSpaces (alts : List (List PatAtom)) : List Char → Bool
  | [] => false
  | c :: cs =>
      isSpaceChar c && (matchAltsAt alts cs || matchSecondAfterSpaces alts cs)

/-- The two regex shapes occurring in `incompatiblePatterns`:
`\b(alt|...)\b` and `\b(alt|...)\s+(alt|...)\b`. -/
inductive TitlePattern
  | words (alts : List (List PatAtom))
  | seniority (first second : List (List PatAtom))
deriving Repr

/-- Match a pattern starting exactly at this position. -/
def matchPatAt (p : TitlePattern) (cs : List Char) : Bool :=
  match p with
  | TitlePattern.words alts => matchAltsAt alts cs
  | TitlePattern.seniority first second =>
      first.any fun alt =>
        match matchAtoms alt cs with
        | some rest => matchSecondAfterSpaces second rest
        | none => false

/-- Scan for a match anywhere in the text (regex `test`): a match may
start wherever the preceding character is not a word character (the
leading `\b`; all alternatives start with a word character). -/
def scanPat (p : TitlePattern) : Bool → List Char → Bool
  | _, [] => false
  | prevWord, c :: cs =>
      (!prevWord && matchPatAt p (c :: cs)) || scanPat p (isWordChar c) cs

/-- `pattern.test(t)` for the rule patterns, on an explicit character
list (titles are normalized to character lists first). -/
def testPat (p : TitlePattern) (cs : List Char) : Bool :=
  scanPat p false cs

/-- One entry of the `incompatiblePatterns` table. -/
structure TitleRule where
  pattern : TitlePattern
  incompatibleWith : List TitlePattern

/-- Shorthand for a `\b(w1|w2|...)\b` pattern. -/
def wordsPat (ws : List String) : TitlePattern :=
  TitlePattern.words (ws.map patOfString)

/-- The rule table of `areTitlesCompatible` (lines 545-576), in source
order; `*` encodes the `[- ]` class. -/
def incompatiblePatterns : List TitleRule :=
  [ { pattern := wordsPat ["1:1", "one*on*one", "one*to*one", "individual"],
      incompatibleWith :=
        [wordsPat ["demo", "demonstration", "presentation", "standup",
                   "sync", "review", "team", "group"]] },
    { pattern := TitlePattern.seniority
        (["manager", "executive", "director", "vp", "ceo", "cto",
          "cfo"].map patOfString)
        (["call", "meeting", "1:1", "one*on*one"].map patOfString),
      incompatibleWith :=
        [wordsPat ["demo", "demonstration", "presentation", "client",
                   "customer"]] },
    { pattern := wordsPat ["personal", "private", "confidential"],
      incompatibleWith :=
        [wordsPat ["team", "group", "public", "all*hands", "company"]] },
    { pattern := wordsPat ["client", "customer", "external", "vendor",
                           "partner"],
      incompatibleWith :=
        [wordsPat ["internal", "team", "standup", "sync", "1:1",
                   "one*on*one"]] },
    { pattern := wordsPat ["demo", "demonstration", "presentation"],
      incompatibleWith :=
        [wordsPat ["1:1", "one*on*one", "manager", "executive",
                   "personal", "private"]] } ]

/-- ASCII lower-casing of a character, as `toLowerCase` acts on the
characters occurring in titles. -/
def toLowerChar (c : Char) : Char :=
  if 'A' ≤ c && c ≤ 'Z' then Char.ofNat (c.toNat + 32) else c

/-- Drop leading whitespace. -/
def trimLeftChars : List Char → List Char
  | [] => []
  | c :: cs => if isSpaceChar c then trimLeftChars cs else c :: cs

/-- `trim()`: drop whitespace from both ends. -/
def trimChars (cs : List Char) : List Char :=
  trimLeftChars ((trimLeftChars cs.reverse).reverse)

/-- `title.toLowerCase().trim()`, as a character list. -/
def normalizeTitle (t : String) : List Char :=
  trimChars (t.data.map toLowerChar)

/-- Does this rule make the (already normalized) titles incompatible?
Mirrors the loop body: if either title matches the trigger, the *other*
title (the second one when the first matched) is tested against the
blocked patterns. -/
def ruleBlocks (rule : TitleRule) (t1 t2 : List Char) : Bool :=
  let m1 := testPat rule.pattern t1
  let m2 := testPat rule.pattern t2
  if m1 || m2 then
    let otherTitle := if m1 then t2 else t1
    rule.incompatibleWith.any fun p => testPat p otherTitle
  else
    false

/-- `areTitlesCompatible(title1, title2)` (lines 541-596): `false` as soon
as some rule blocks, else `true`. -/
def areTitlesCompatible (title1 title2 : String) : Bool :=
  let t1 := normalizeTitle title1
  let t2 := normalizeTitle title2
  !(incompatiblePatterns.any fun rule => ruleBlocks rule t1 t2)

/-! ## Pairwise overlap predicate (`isOverlapping`, lines 503-539) -/

/-- The full participant id set of an event: creator plus invitees. -/
def participantIds (e : Event) : List String :=
  e.creator.id :: e.invitees.map User.id

/-- Participant ids with the invoking user removed (`Set.delete(userId)`). -/
def participantsExcluding (e : Event) (userId : String) : List String :=
  (participantIds e).filter fun i => i ≠ userId

/-- `Array.from(set1).some((id) => set2.has(id))` after removing the
invoking user from both sides. -/
def hasCommonParticipant (e1 e2 : Event) (userId : String) : Bool :=
  (participantsExcluding e1 userId).any fun i =>
    (participantsExcluding e2 userId).contains i

/-- The inclusive interval test `start1 <= end2 && end1 >= start2`. -/
def timeOverlaps (e1 e2 : Event) : Bool :=
  decide (e1.startTime ≤ e2.endTime) && decide (e1.endTime ≥ e2.startTime)

/-- `isOverlapping(event1, event2, userId)` (lines 503-539). -/
def isOverlapping (e1 e2 : Event) (userId : String) : Bool :=
  if !timeOverlaps e1 e2 then false
  else if !hasCommonParticipant e1 e2 userId then false
  else if !areTitlesCompatible e1.title e2.title then false
  else true

/-! ## Merge synthesizer (`mergeEvents`, lines 638-695) -/

/-- The draft produced by `mergeEvents` before persistence assigns an id. -/
structure MergedDraft where
  title : String
  description : Option String
  status : EventStatus
  startTime : Int
  endTime : Int
  creator : User
  invitees : List User
  mergedFrom : List String
deriving DecidableEq, Repr

/-- The `statusPriority` table (lines 652-657). -/
def statusPriority : EventStatus → Nat
  | EventStatus.COMPLETED => 4
  | EventStatus.IN_PROGRESS => 3
  | EventStatus.TODO => 2
  | EventStatus.CANCELED => 1

/-- Ascending key order of the sort comparator
`(a, b) => a.startTime - b.startTime`. -/
def startLE (a b : Event) : Prop :=
  a.startTime ≤ b.startTime

instance : DecidableRel startLE :=
  fun a b => Int.decLe a.startTime b.startTime

instance : IsTotal Event startLE :=
  ⟨fun a b => le_total a.startTime b.startTime⟩

instance : IsTrans Event startLE :=
  ⟨fun _ _ _ hab hbc => le_trans hab hbc⟩

/-- `[...events].sort((a, b) => a.startTime - b.startTime)`: a stable
ascending sort by start time (insertion sort places each element before
the previously-inserted elements with an equal key, which preserves the
input order of equal keys). -/
def sortedByStart (events : List Event) : List Event :=
  List.insertionSort startLE events

/-- `Map.set(u.id, u)` on an id-keyed insertion-ordered map: replace the
value at an existing key keeping its position, else append. -/
def mapSet (m : List User) (u : User) : List User :=
  if m.any fun v => v.id = u.id then
    m.map fun v => if v.id = u.id then u else v
  else m ++ [u]

/-- The `allInvitees` map: every member's creator and invitees, in
encounter order (lines 671-679). -/
def collectInvitees (sorted : List Event) : List User :=
  sorted.foldl (fun m e => e.invitees.foldl mapSet (mapSet m e.creator)) []

/-- Body of `mergeEvents` on the (nonempty) sorted member list. -/
def mergeSorted (first : Event) (rest : List Event) : MergedDraft :=
  let sorted := first :: rest
  let mergedTitle := String.intercalate " | " (sorted.map Event.title)
  let mergedStartTime := first.startTime
  let mergedEndTime := sorted.foldl
    (fun latest e => if e.endTime > latest then e.endTime else latest)
    first.endTime
  let mergedStatus := (rest.foldl
    (fun highest e =>
      if statusPriority e.status > statusPriority highest.status then e
      else highest) first).status
  let descriptions := sorted.filterMap fun e =>
    match e.description with
    | some d => if (trimChars d.data).isEmpty then none else some d
    | none => none
  let mergedDescription :=
    if descriptions.isEmpty then none
    else some (String.intercalate "\n\n" descriptions)
  let creator := first.creator
  let invitees := (collectInvitees sorted).filter fun v => v.id ≠ creator.id
  ⟨mergedTitle, mergedDescription, mergedStatus, mergedStartTime,
   mergedEndTime, creator, invitees, sorted.map Event.id⟩

/-- `mergeEvents(events, userId)` (lines 638-695), pure synthesis part;
`none` models the crash on an empty input (never reached: callers pass
groups of size ≥ 2). -/
def mergeEvents (events : List Event) : Option MergedDraft :=
  match sortedByStart events with
  | [] => none
  | first :: rest => some (mergeSorted first rest)

/-! ## Sample data used by concrete witnesses and counterexamples -/

/-- Sample user. -/
def alice : User := ⟨"u1", "Alice", "alice@example.com"⟩

/-- Sample user. -/
def bob : User := ⟨"u2", "Bob", "bob@example.com"⟩

/-- Sample user. -/
def cara : User := ⟨"u3", "Cara", "cara@example.com"⟩

/-- Event titled `"1:1 sync"`, 0-10, creator Alice, invitee Bob. -/
def evSync : Event :=
  ⟨"e-a", "1:1 sync", none, EventStatus.TODO, 0, 10, alice, [bob], none⟩

/-- Event titled `"1:1"`, 5-15, creator Alice, invitee Bob. -/
def evOne : Event :=
  ⟨"e-b", "1:1", none, EventStatus.TODO, 5, 15, alice, [bob], none⟩

/-- Event titled `"1:1"`, 12-20, creator Alice, invitee Bob. -/
def evOneLate : Event :=
  ⟨"e-c", "1:1", none, EventStatus.TODO, 12, 20, alice, [bob], none⟩

/-! ## Helper lemmas -/

/-- `List.any` only depends on the values of the predicate on members. -/
theorem anyCongrOfMem {α : Type} {l : List α} {f g : α → Bool}
    (h : ∀ a ∈ l, f a = g a) : l.any f = l.any g := by
  induction l with
  | nil => rfl
  | cons a l ih =>
      simp only [List.any_cons, h a (by simp)]
      rw [ih fun b hb => h b (by simp [hb])]

/-- `contains` on id lists agrees with membership. -/
theorem containsIffMem {l : List String} {a : String} :
    l.contains a = true ↔ a ∈ l := by
  simp [List.contains_iff_exists_mem_beq]

/-- A rule treats its two titles symmetrically unless its trigger pattern
matches both of them. -/
theorem ruleBlocks_symm (r : TitleRule) (t1 t2 : List Char)
    (h : ¬(testPat r.pattern t1 = true ∧ testPat r.pattern t2 = true)) :
    ruleBlocks r t1 t2 = ruleBlocks r t2 t1 := by
  unfold ruleBlocks
  cases h1 : testPat r.pattern t1 <;> cases h2 : testPat r.pattern t2 <;>
    simp [h1, h2]
  exact absurd ⟨h1, h2⟩ h

/-- C1, counterexample: the title-compatibility check is not symmetric —
`compatible("1:1", "1:1 sync")` is `false` (rule 1 fires on `"1:1"` and
`"sync"` blocks the other title) while `compatible("1:1 sync", "1:1")` is
`true` (the rule fires on the first title, so only `"1:1"` is tested
against the blocked patterns).  Moreover `isOverlapping` accepts the pair
`(evSync, evOne)` although compatibility fails in the reverse direction,
so `mayMerge` does not require title compatibility in both directions. -/
theorem c1_counterexample :
    ¬(areTitlesCompatible "1:1" "1:1 sync" =
        areTitlesCompatible "1:1 sync" "1:1") ∧
    isOverlapping evSync evOne "u1" = true ∧
    areTitlesCompatible evOne.title evSync.title = false := by decide

/-- C1 (amended): the title-compatibility check is symmetric provided no
single rule's trigger pattern matches both (normalized) titles, and
`isOverlapping` (= `mayMerge`) requires title compatibility only in the
direction (first event's title, second event's title). -/
theorem c1_titleSymmetry_amended :
    (∀ t1 t2 : String,
        (∀ r ∈ incompatiblePatterns,
            ¬(testPat r.pattern (normalizeTitle t1) = true ∧
              testPat r.pattern (normalizeTitle t2) = true)) →
        areTitlesCompatible t1 t2 = areTitlesCompatible t2 t1) ∧
    (∀ (e1 e2 : Event) (userId : String),
        isOverlapping e1 e2 userId = true →
        areTitlesCompatible e1.title e2.title = true) := by
  constructor
  · intro t1 t2 h
    simp only [areTitlesCompatible]
    rw [anyCongrOfMem fun r hr => ruleBlocks_symm r _ _ (h r hr)]
  · intro e1 e2 userId h
    cases hc : areTitlesCompatible e1.title e2.title
    · simp [isOverlapping, hc] at h
    · rfl

/-- C1, witness for the amended theorem at concrete inputs. -/
theorem c1_titleSymmetry_witness :
    areTitlesCompatible "Planning" "Team Meeting" =
      areTitlesCompatible "Team Meeting" "Planning" ∧
    areTitlesCompatible evSync.title evOne.title = true :=
  ⟨c1_titleSymmetry_amended.1 "Planning" "Team Meeting" (by decide),
   c1_titleSymmetry_amended.2 evSync evOne "u1" (by decide)⟩

/-! ## Sorting and folding lemmas for the synthesizer -/

/-- Sorting permutes the member list. -/
theorem sortedByStart_perm (events : List Event) :
    (sortedByStart events).Perm events :=
  List.perm_insertionSort startLE events

/-- The sorted member list is ascending in start time. -/
theorem sortedByStart_pairwise (events : List Event) :
    List.Pairwise (fun a b : Event => a.startTime ≤ b.startTime)
      (sortedByStart events) :=
  List.sorted_insertionSort startLE events

/-- Specification of the `reduce` computing the merged end time: the
result is the initial value or some member's end time, dominates the
initial value, and dominates every member's end time. -/
theorem foldlEnd_spec (l : List Event) (init : Int) :
    (l.foldl (fun latest e => if e.endTime > latest then e.endTime else latest)
        init = init ∨
      ∃ e ∈ l,
        l.foldl (fun latest e => if e.endTime > latest then e.endTime else latest)
          init = e.endTime) ∧
    init ≤ l.foldl
        (fun latest e => if e.endTime > latest then e.endTime else latest) init ∧
    ∀ e ∈ l,
      e.endTime ≤ l.foldl
        (fun latest e => if e.endTime > latest then e.endTime else latest) init := by
  induction l generalizing init with
  | nil => simp
  | cons a l ih =>
      simp only [List.foldl_cons]
      obtain ⟨hmem, hle, hall⟩ := ih (if a.endTime > init then a.endTime else init)
      have h1 : init ≤ (if a.endTime > init then a.endTime else init) := by
        split <;> omega
      have h2 : a.endTime ≤ (if a.endTime > init then a.endTime else init) := by
        split <;> omega
      refine ⟨?_, le_trans h1 hle, ?_⟩
      · rcases hmem with h | ⟨e, he, hr⟩
        · by_cases hc : a.endTime > init
          · right
            refine ⟨a, List.mem_cons_self a l, ?_⟩
            rw [h, if_pos hc]
          · left
            rw [h, if_neg hc]
        · right
          exact ⟨e, List.mem_cons_of_mem a he, hr⟩
      · intro e he
        rcases List.mem_cons.mp he with rfl | he'
        · exact le_trans h2 hle
        · exact hall e he'

/-- Projection of the synthesized start time. -/
theorem mergeSorted_startTime (first : Event) (rest : List Event) :
    (mergeSorted first rest).startTime = first.startTime := rfl

/-- Projection of the synthesized end time. -/
theorem mergeSorted_endTime (first : Event) (rest : List Event) :
    (mergeSorted first rest).endTime =
      (first :: rest).foldl
        (fun latest e => if e.endTime > latest then e.endTime else latest)
        first.endTime := rfl

/-- C3: for every group of at least two events, the synthesized merged
event's start time is the minimum start time over exactly the group's
members, and its end time is the maximum end time over exactly the
group's members (each is attained by a member and bounds all members). -/
theorem c3_mergedTimes (events : List Event) (h2 : 2 ≤ events.length) :
    ∃ m : MergedDraft, mergeEvents events = some m ∧
      m.startTime ∈ events.map Event.startTime ∧
      (∀ e ∈ events, m.startTime ≤ e.startTime) ∧
      m.endTime ∈ events.map Event.endTime ∧
      (∀ e ∈ events, e.endTime ≤ m.endTime) := by
  have hperm := sortedByStart_perm events
  have hpair := sortedByStart_pairwise events
  cases hs : sortedByStart events with
  | nil =>
      exfalso
      have hlen := hperm.length_eq
      rw [hs] at hlen
      simp at hlen
      omega
  | cons first rest =>
      rw [hs] at hperm hpair
      refine ⟨mergeSorted first rest, by simp [mergeEvents, hs], ?_, ?_, ?_, ?_⟩
      · rw [mergeSorted_startTime]
        exact List.mem_map_of_mem Event.startTime
          (hperm.subset (List.mem_cons_self first rest))
      · intro e he
        rw [mergeSorted_startTime]
        rcases List.mem_cons.mp (hperm.mem_iff.mpr he) with rfl | hr
        · exact le_refl _
        · exact (List.pairwise_cons.mp hpair).1 e hr
      · rw [mergeSorted_endTime]
        obtain ⟨hmem, hinit, hall⟩ := foldlEnd_spec (first :: rest) first.endTime
        rcases hmem with h | ⟨e, he, hr⟩
        · rw [h]
          exact List.mem_map_of_mem Event.endTime
            (hperm.subset (List.mem_cons_self first rest))
        · rw [hr]
          exact List.mem_map_of_mem Event.endTime (hperm.subset he)
      · intro e he
        rw [mergeSorted_endTime]
        obtain ⟨hmem, hinit, hall⟩ := foldlEnd_spec (first :: rest) first.endTime
        exact hall e (hperm.mem_iff.mpr he)

/-- C3, witness at a concrete two-event group. -/
theorem c3_mergedTimes_witness :
    ∃ m : MergedDraft, mergeEvents [evSync, evOne] = some m ∧
      m.startTime ∈ ([evSync, evOne] : List Event).map Event.startTime ∧
      (∀ e ∈ ([evSync, evOne] : List Event), m.startTime ≤ e.startTime) ∧
      m.endTime ∈ ([evSync, evOne] : List Event).map Event.endTime ∧
      (∀ e ∈ ([evSync, evOne] : List Event), e.endTime ≤ m.endTime) :=
  c3_mergedTimes [evSync, evOne] (by decide)

/-- C9: if every member of a nonempty group has `startTime < endTime`,
the synthesized merged event also has `startTime < endTime`, although the
synthesizer re-validates nothing. -/
theorem c9_mergedInterval (events : List Event) (hne : events ≠ [])
    (hval : ∀ e ∈ events, e.startTime < e.endTime) :
    ∃ m : MergedDraft, mergeEvents events = some m ∧
      m.startTime < m.endTime := by
  have hperm := sortedByStart_perm events
  cases hs : sortedByStart events with
  | nil =>
      exfalso
      have hlen := hperm.length_eq
      rw [hs] at hlen
      cases events with
      | nil => exact hne rfl
      | cons a l => simp at hlen
  | cons first rest =>
      rw [hs] at hperm
      refine ⟨mergeSorted first rest, by simp [mergeEvents, hs], ?_⟩
      rw [mergeSorted_startTime, mergeSorted_endTime]
      obtain ⟨-, hinit, -⟩ := foldlEnd_spec (first :: rest) first.endTime
      have hf : first ∈ events := hperm.subset (List.mem_cons_self first rest)
      exact lt_of_lt_of_le (hval first hf) hinit

/-- C9, witness at a concrete two-event group. -/
theorem c9_mergedInterval_witness :
    ∃ m : MergedDraft, mergeEvents [evSync, evOne] = some m ∧
      m.startTime < m.endTime :=
  c9_mergedInterval [evSync, evOne] (by decide) (by decide)

/-! ## Touching boundaries (claim C6) -/

/-- Event titled `"Planning"`, 0-10. -/
def evPlanning : Event :=
  ⟨"e-p", "Planning", none, EventStatus.TODO, 0, 10, alice, [bob], none⟩

/-- Event titled `"Budget"`, 10-20: touches `evPlanning` at time 10. -/
def evBudget : Event :=
  ⟨"e-q", "Budget", none, EventStatus.TODO, 10, 20, alice, [bob], none⟩

/-- C6: when one event's end equals the other's start (and both satisfy
the stored-event invariant `startTime ≤ endTime`), the inclusive time
test `start1 <= end2 AND end1 >= start2` holds, so the pair is not
excluded on time grounds: it is eligible to merge whenever the
participant and title checks pass. -/
theorem c6_touchingBoundaries (e1 e2 : Event) (userId : String)
    (htouch : e1.endTime = e2.startTime)
    (h1 : e1.startTime ≤ e1.endTime) (h2 : e2.startTime ≤ e2.endTime) :
    timeOverlaps e1 e2 = true ∧
    (hasCommonParticipant e1 e2 userId = true →
      areTitlesCompatible e1.title e2.title = true →
      isOverlapping e1 e2 userId = true) := by
  have ht : timeOverlaps e1 e2 = true := by
    simp only [timeOverlaps, Bool.and_eq_true, decide_eq_true_eq, ge_iff_le]
    omega
  refine ⟨ht, fun hp hc => ?_⟩
  simp [isOverlapping, ht, hp, hc]

/-- C6, witness at concrete touching events. -/
theorem c6_touchingBoundaries_witness :
    timeOverlaps evPlanning evBudget = true ∧
    isOverlapping evPlanning evBudget "u1" = true :=
  ⟨(c6_touchingBoundaries evPlanning evBudget "u1" (by decide) (by decide)
      (by decide)).1,
   (c6_touchingBoundaries evPlanning evBudget "u1" (by decide) (by decide)
      (by decide)).2 (by decide) (by decide)⟩

/-! ## Connected-component grouper (`groupOverlappingEvents`, lines
598-636)

The inner `while (foundOverlap)` loop is translated with an explicit
iteration bound (`events.length + 1`): each continuing iteration marks at
least one additional event as processed (`passOnce_decrease`), so the
bound is never reached (theorem `c10_groupingTerminates`); the
`Option`-valued variant `expandLoopTerm` returns `none` exactly when the
bound would be exceeded. -/

/-- Body of the inner `for` loop: skip processed events, append any event
overlapping some current group member and mark it processed, recording
that the pass found an overlap. -/
def scanStep (userId : String) (acc : List Event × List String × Bool)
    (other : Event) : List Event × List String × Bool :=
  if acc.2.1.contains other.id then acc
  else if acc.1.any fun e => isOverlapping e other userId then
    (acc.1 ++ [other], other.id :: acc.2.1, true)
  else acc

/-- One full pass of the inner `while` loop (with `foundOverlap` reset to
`false` at the start of the pass). -/
def passOnce (events : List Event) (userId : String) (group : List Event)
    (processed : List String) : List Event × List String × Bool :=
  events.foldl (scanStep userId) (group, processed, false)

/-- The inner `while (foundOverlap)` loop, with an explicit iteration
bound. -/
def expandLoop (events : List Event) (userId : String) :
    Nat → List Event → List String → List Event × List String
  | 0, group, processed => (group, processed)
  | fuel + 1, group, processed =>
      let r := passOnce events userId group processed
      if r.2.2 then expandLoop events userId fuel r.1 r.2.1
      else (r.1, r.2.1)

/-- `Option`-valued variant of `expandLoop`: `none` when the iteration
bound is exhausted before the pass fixpoint is reached. -/
def expandLoopTerm (events : List Event) (userId : String) :
    Nat → List Event → List String → Option (List Event × List String)
  | 0, _, _ => none
  | fuel + 1, group, processed =>
      let r := passOnce events userId group processed
      if r.2.2 then expandLoopTerm events userId fuel r.1 r.2.1
      else some (r.1, r.2.1)

/-- Body of the outer `for` loop: skip processed events, else seed a
group from the event, expand it to a fixpoint, and keep it when its size
exceeds 1. -/
def groupStep (events : List Event) (userId : String)
    (acc : List (List Event) × List String) (event : Event) :
    List (List Event) × List String :=
  if acc.2.contains event.id then acc
  else
    let r := expandLoop events userId (events.length + 1) [event]
      (event.id :: acc.2)
    if r.1.length > 1 then (acc.1 ++ [r.1], r.2) else (acc.1, r.2)

/-- `groupOverlappingEvents(events, userId)` (lines 598-636): the outer
`for` loop over all events, seeding a group from each not-yet-processed
event, expanding it to a fixpoint, and keeping groups of size > 1. -/
def groupOverlappingEvents (events : List Event) (userId : String) :
    List (List Event) :=
  (events.foldl (groupStep events userId) ([], [])).1

/-- Number of events not yet marked processed. -/
def unprocessedCount (events : List Event) (processed : List String) : Nat :=
  (events.filter fun e => !(processed.contains e.id)).length

end EventCollab

namespace EventCollab

/-- Bool/Prop bridge for the negated `contains` tests. -/
theorem notContainsIff {l : List String} {a : String} :
    (!(l.contains a)) = true ↔ a ∉ l := by
  rw [Bool.not_eq_true']
  constructor
  · intro h hmem
    rw [containsIffMem.mpr hmem] at h
    cases h
  · intro h
    cases hc : l.contains a
    · rfl
    · exact absurd (containsIffMem.mp hc) h

/-- Full characterization of one pass of the inner loop, as a fold over
an arbitrary suffix `l` of the event list: the group grows by a block `Δ`
of previously unprocessed events of `l`, the processed set grows by
exactly the ids of `Δ`, the `foundOverlap` flag is set iff it was set or
something was added, a pass that adds nothing changes nothing, and after
a pass that found nothing no unprocessed event of `l` overlaps any member
of the (unchanged) group. -/
theorem scanFold_spec (userId : String) (l : List Event)
    (acc : List Event × List String × Bool) :
    ∃ Δ : List Event,
      (l.foldl (scanStep userId) acc).1 = acc.1 ++ Δ ∧
      (∀ d ∈ Δ, d ∈ l ∧ d.id ∉ acc.2.1) ∧
      (∀ x : String, x ∈ (l.foldl (scanStep userId) acc).2.1 ↔
        (x ∈ acc.2.1 ∨ ∃ d ∈ Δ, d.id = x)) ∧
      ((l.foldl (scanStep userId) acc).2.2 = true ↔
        (acc.2.2 = true ∨ Δ ≠ [])) ∧
      (Δ = [] → l.foldl (scanStep userId) acc = acc) ∧
      ((l.foldl (scanStep userId) acc).2.2 = false →
        ∀ y ∈ l, y.id ∉ acc.2.1 →
          (acc.1.any fun e => isOverlapping e y userId) = false) := by
  induction l generalizing acc with
  | nil =>
      exact ⟨[], by simp, by simp, by simp, by simp, fun _ => rfl, by simp⟩
  | cons a l ih =>
      simp only [List.foldl_cons]
      by_cases hproc : a.id ∈ acc.2.1
      · have hstep : scanStep userId acc a = acc := by
          simp [scanStep, hproc]
        rw [hstep]
        obtain ⟨Δ, h1, h2, h3, h4, h5, h6⟩ := ih acc
        refine ⟨Δ, h1,
          fun d hd => ⟨List.mem_cons_of_mem a (h2 d hd).1, (h2 d hd).2⟩,
          h3, h4, h5, ?_⟩
        intro hf y hy hyp
        rcases List.mem_cons.mp hy with rfl | hy'
        · exact absurd hproc hyp
        · exact h6 hf y hy' hyp
      · by_cases hov : (acc.1.any fun e => isOverlapping e a userId) = true
        · have hstep : scanStep userId acc a =
              (acc.1 ++ [a], a.id :: acc.2.1, true) := by
            simp [scanStep, hproc, hov]
          rw [hstep]
          obtain ⟨Δ, h1, h2, h3, h4, h5, h6⟩ :=
            ih (acc.1 ++ [a], a.id :: acc.2.1, true)
          refine ⟨a :: Δ, ?_, ?_, ?_, ?_, ?_, ?_⟩
          · rw [h1]; simp
          · intro d hd
            rcases List.mem_cons.mp hd with heq | hd'
            · rw [heq]
              exact ⟨List.mem_cons_self a l, hproc⟩
            · obtain ⟨hdl, hdp⟩ := h2 d hd'
              exact ⟨List.mem_cons_of_mem a hdl,
                fun hmem => hdp (List.mem_cons_of_mem _ hmem)⟩
          · intro x
            rw [h3 x]
            constructor
            · rintro (hx | ⟨d, hd, rfl⟩)
              · rcases List.mem_cons.mp hx with rfl | hx'
                · exact Or.inr ⟨a, List.mem_cons_self a Δ, rfl⟩
                · exact Or.inl hx'
              · exact Or.inr ⟨d, List.mem_cons_of_mem a hd, rfl⟩
            · rintro (hx | ⟨d, hd, rfl⟩)
              · exact Or.inl (List.mem_cons_of_mem _ hx)
              · rcases List.mem_cons.mp hd with heq | hd'
                · rw [heq]
                  exact Or.inl (List.mem_cons_self a.id _)
                · exact Or.inr ⟨d, hd', rfl⟩
          · rw [h4]
            simp
          · intro h
            exact absurd h (List.cons_ne_nil a Δ)
          · intro hf
            exact absurd (h4.mpr (Or.inl rfl)) (by simp [hf])
        · have hovf : (acc.1.any fun e => isOverlapping e a userId) = false := by
            cases hc : (acc.1.any fun e => isOverlapping e a userId)
            · rfl
            · exact absurd hc hov
          have hstep : scanStep userId acc a = acc := by
            simp [scanStep, hproc, hovf]
          rw [hstep]
          obtain ⟨Δ, h1, h2, h3, h4, h5, h6⟩ := ih acc
          refine ⟨Δ, h1,
            fun d hd => ⟨List.mem_cons_of_mem a (h2 d hd).1, (h2 d hd).2⟩,
            h3, h4, h5, ?_⟩
          intro hf y hy hyp
          rcases List.mem_cons.mp hy with rfl | hy'
          · exact hovf
          · exact h6 hf y hy' hyp

/-- Filtering with a pointwise stronger predicate keeps fewer elements. -/
theorem length_filter_mono {α : Type} (l : List α) (p q : α → Bool)
    (h : ∀ a ∈ l, p a = true → q a = true) :
    (l.filter p).length ≤ (l.filter q).length := by
  induction l with
  | nil => simp
  | cons a l ih =>
      have ih' := ih fun b hb => h b (List.mem_cons_of_mem a hb)
      by_cases hp : p a = true
      · have hq := h a (List.mem_cons_self a l) hp
        simp only [List.filter_cons, hp, hq, if_true, List.length_cons]
        omega
      · have hp' : p a = false := by
          cases hx : p a
          · rfl
          · exact absurd hx hp
        cases hq : q a
        · simp [List.filter_cons, hp', hq]
          omega
        · simp [List.filter_cons, hp', hq]
          omega

/-- Strict variant of `length_filter_mono` given one element kept by `q`
but dropped by `p`. -/
theorem length_filter_lt {α : Type} (l : List α) (p q : α → Bool)
    (h : ∀ a ∈ l, p a = true → q a = true)
    (a : α) (ha : a ∈ l) (hqa : q a = true) (hpa : p a = false) :
    (l.filter p).length < (l.filter q).length := by
  induction l with
  | nil => cases ha
  | cons b l ih =>
      have hmono := length_filter_mono l p q
        fun c hc => h c (List.mem_cons_of_mem b hc)
      rcases List.mem_cons.mp ha with rfl | ha'
      · simp [List.filter_cons, hpa, hqa]
        omega
      · have ih' := ih (fun c hc => h c (List.mem_cons_of_mem b hc)) ha'
        by_cases hpb : p b = true
        · have hqb := h b (List.mem_cons_self b l) hpb
          simp only [List.filter_cons, hpb, hqb, if_true, List.length_cons]
          omega
        · have hpb' : p b = false := by
            cases hx : p b
            · rfl
            · exact absurd hx hpb
          cases hqb : q b
          · simp [List.filter_cons, hpb', hqb]
            omega
          · simp [List.filter_cons, hpb', hqb]
            omega

/-- Each pass that sets `foundOverlap` marks at least one previously
unprocessed event as processed. -/
theorem passOnce_decrease (events : List Event) (userId : String)
    (group : List Event) (processed : List String)
    (hf : (passOnce events userId group processed).2.2 = true) :
    unprocessedCount events (passOnce events userId group processed).2.1 <
      unprocessedCount events processed := by
  simp only [passOnce] at hf ⊢
  obtain ⟨Δ, h1, h2, h3, h4, h5, h6⟩ :=
    scanFold_spec userId events (group, processed, false)
  have hΔ : Δ ≠ [] := by
    rcases h4.mp hf with hfalse | hne
    · cases hfalse
    · exact hne
  obtain ⟨d, hd⟩ := List.exists_mem_of_ne_nil Δ hΔ
  obtain ⟨hdl, hdp⟩ := h2 d hd
  have hdp' : d.id ∈ (events.foldl (scanStep userId)
      (group, processed, false)).2.1 :=
    (h3 d.id).mpr (Or.inr ⟨d, hd, rfl⟩)
  unfold unprocessedCount
  refine length_filter_lt events _ _ ?_ d hdl ?_ ?_
  · intro e he hpe
    refine notContainsIff.mpr fun hmem => ?_
    exact absurd ((h3 e.id).mpr (Or.inl hmem)) (notContainsIff.mp hpe)
  · exact notContainsIff.mpr hdp
  · have hc : (List.foldl (scanStep userId) (group, processed, false)
        events).2.1.contains d.id = true := containsIffMem.mpr hdp'
    show (!((List.foldl (scanStep userId) (group, processed, false)
        events).2.1.contains d.id)) = false
    rw [hc]
    rfl

/-- With more fuel than unprocessed events, the bounded loop reaches its
fixpoint before the bound: the `Option`-valued variant succeeds. -/
theorem expandLoopTerm_some (events : List Event) (userId : String) :
    ∀ (fuel : Nat) (group : List Event) (processed : List String),
      unprocessedCount events processed < fuel →
      expandLoopTerm events userId fuel group processed =
        some (expandLoop events userId fuel group processed) := by
  intro fuel
  induction fuel with
  | zero => intro g p h; omega
  | succ fuel ih =>
      intro g p h
      simp only [expandLoopTerm, expandLoop]
      by_cases hf : (passOnce events userId g p).2.2 = true
      · rw [if_pos hf, if_pos hf]
        refine ih _ _ ?_
        have := passOnce_decrease events userId g p hf
        omega
      · rw [if_neg hf, if_neg hf]

/-- C10: the fixed-point expansion terminates on every finite input.
Every pass of the inner `while` loop that sets `foundOverlap` marks at
least one previously unprocessed event as processed, so with the
iteration bound `events.length + 1` (one more than the number of events,
which bounds the unprocessed count) the loop always reaches its fixpoint
before the bound: the `Option`-valued loop returns `some` and agrees with
the bounded loop used by `groupOverlappingEvents`.  The outer `for` loop
is a single structural fold, visiting each event exactly once. -/
theorem c10_groupingTerminates :
    (∀ (events : List Event) (userId : String) (group : List Event)
        (processed : List String),
      (passOnce events userId group processed).2.2 = true →
      unprocessedCount events (passOnce events userId group processed).2.1 <
        unprocessedCount events processed) ∧
    (∀ (events : List Event) (userId : String) (group : List Event)
        (processed : List String),
      expandLoopTerm events userId (events.length + 1) group processed =
        some (expandLoop events userId (events.length + 1) group processed)) := by
  refine ⟨passOnce_decrease, fun events userId g p => ?_⟩
  refine expandLoopTerm_some events userId _ g p ?_
  have hb : unprocessedCount events p ≤ events.length :=
    List.length_filter_le _ _
  omega

/-- C10, witness at a concrete input where the inner loop runs a
continuing pass. -/
theorem c10_groupingTerminates_witness :
    (passOnce [evSync, evOne] "u1" [evSync] ["e-a"]).2.2 = true ∧
    unprocessedCount [evSync, evOne]
        (passOnce [evSync, evOne] "u1" [evSync] ["e-a"]).2.1 <
      unprocessedCount [evSync, evOne] ["e-a"] ∧
    expandLoopTerm [evSync, evOne] "u1"
        (([evSync, evOne] : List Event).length + 1) [evSync] ["e-a"] =
      some (expandLoop [evSync, evOne] "u1"
        (([evSync, evOne] : List Event).length + 1) [evSync] ["e-a"]) :=
  ⟨by decide,
   c10_groupingTerminates.1 [evSync, evOne] "u1" [evSync] ["e-a"] (by decide),
   c10_groupingTerminates.2 [evSync, evOne] "u1" [evSync] ["e-a"]⟩

/-- Full characterization of the inner `while` loop (given enough fuel):
the seed group grows by a block `Δ` of previously unprocessed events, the
processed set grows by exactly the ids of `Δ`, and at the resulting
fixpoint no unprocessed event overlaps any group member. -/
theorem expandLoop_spec (events : List Event) (userId : String) :
    ∀ (fuel : Nat) (g : List Event) (p : List String),
      unprocessedCount events p < fuel →
      ∃ Δ : List Event,
        (expandLoop events userId fuel g p).1 = g ++ Δ ∧
        (∀ d ∈ Δ, d ∈ events ∧ d.id ∉ p) ∧
        (∀ x : String, x ∈ (expandLoop events userId fuel g p).2 ↔
          (x ∈ p ∨ ∃ d ∈ Δ, d.id = x)) ∧
        (∀ y ∈ events, y.id ∉ (expandLoop events userId fuel g p).2 →
          ∀ e ∈ (expandLoop events userId fuel g p).1,
            isOverlapping e y userId = false) := by
  intro fuel
  induction fuel with
  | zero => intro g p h; omega
  | succ fuel ih =>
      intro g p hfuel
      obtain ⟨Δ0, k1, k2, k3, k4, k5, k6⟩ :=
        scanFold_spec userId events (g, p, false)
      by_cases hf : (passOnce events userId g p).2.2 = true
      · have hrun : expandLoop events userId (fuel + 1) g p =
            expandLoop events userId fuel
              (passOnce events userId g p).1
              (passOnce events userId g p).2.1 := by
          simp only [expandLoop]
          rw [if_pos hf]
        have hdec := passOnce_decrease events userId g p hf
        obtain ⟨Δ1, e1, e2, e3, e4⟩ :=
          ih (passOnce events userId g p).1 (passOnce events userId g p).2.1
            (by omega)
        rw [hrun]
        refine ⟨Δ0 ++ Δ1, ?_, ?_, ?_, e4⟩
        · rw [e1]
          show (passOnce events userId g p).1 ++ Δ1 = g ++ (Δ0 ++ Δ1)
          simp only [passOnce]
          rw [k1]
          simp
        · intro d hd
          rcases List.mem_append.mp hd with hd0 | hd1
          · exact k2 d hd0
          · obtain ⟨hdl, hdp⟩ := e2 d hd1
            refine ⟨hdl, fun hmem => hdp ?_⟩
            show d.id ∈ (passOnce events userId g p).2.1
            simp only [passOnce]
            exact (k3 d.id).mpr (Or.inl hmem)
        · intro x
          rw [e3 x]
          have hk3 : x ∈ (passOnce events userId g p).2.1 ↔
              (x ∈ p ∨ ∃ d ∈ Δ0, d.id = x) := k3 x
          rw [hk3]
          constructor
          · rintro ((hx | ⟨d, hd, rfl⟩) | ⟨d, hd, rfl⟩)
            · exact Or.inl hx
            · exact Or.inr ⟨d, List.mem_append.mpr (Or.inl hd), rfl⟩
            · exact Or.inr ⟨d, List.mem_append.mpr (Or.inr hd), rfl⟩
          · rintro (hx | ⟨d, hd, rfl⟩)
            · exact Or.inl (Or.inl hx)
            · rcases List.mem_append.mp hd with hd0 | hd1
              · exact Or.inl (Or.inr ⟨d, hd0, rfl⟩)
              · exact Or.inr ⟨d, hd1, rfl⟩
      · have hff : (passOnce events userId g p).2.2 = false := by
          cases hx : (passOnce events userId g p).2.2
          · rfl
          · exact absurd hx hf
        have hff' : (List.foldl (scanStep userId) (g, p, false)
            events).2.2 = false := hff
        have hΔ0 : Δ0 = [] := by
          by_cases hn : Δ0 = []
          · exact hn
          · exact absurd (k4.mpr (Or.inr hn)) (by simp [hff'])
        have hid : passOnce events userId g p = (g, p, false) := by
          simp only [passOnce]
          exact k5 hΔ0
        have hrun : expandLoop events userId (fuel + 1) g p = (g, p) := by
          simp only [expandLoop]
          rw [if_neg hf, hid]
        rw [hrun]
        refine ⟨[], by simp, by simp, by simp, ?_⟩
        intro y hy hyp e he
        have h6 := k6 hff' y hy hyp
        exact Bool.eq_false_iff.mpr ((List.any_eq_false.mp h6) e he)

/-- Invariant of the outer loop of `groupOverlappingEvents`: the
accumulator is explained by a list of expansion components (`parts`).
The produced groups are exactly the parts of size > 1 in discovery
order, the processed ids are exactly the ids of part members, parts are
nonempty subsets of the event list, no member of an earlier part
overlaps a member of a later part (in that direction), and no part
member overlaps any still-unprocessed event. -/
def GrouperInv (events : List Event) (userId : String)
    (acc : List (List Event) × List String) : Prop :=
  ∃ parts : List (List Event),
    acc.1 = parts.filter (fun g => decide (1 < g.length)) ∧
    (∀ x : String, x ∈ acc.2 ↔ ∃ S ∈ parts, ∃ e ∈ S, e.id = x) ∧
    (∀ S ∈ parts, S ≠ [] ∧ ∀ e ∈ S, e ∈ events) ∧
    List.Pairwise (fun S T => ∀ e ∈ S, ∀ f ∈ T,
      isOverlapping e f userId = false) parts ∧
    (∀ S ∈ parts, ∀ e ∈ S, ∀ y ∈ events, y.id ∉ acc.2 →
      isOverlapping e y userId = false)

/-- Seeding a new group from an unprocessed event preserves the
invariant: the expansion becomes a new part. -/
theorem groupSeed_inv (events : List Event) (userId : String)
    (acc : List (List Event) × List String) (a : Event)
    (ha : a.id ∉ acc.2) (haev : a ∈ events)
    (hinv : GrouperInv events userId acc)
    (r : List Event × List String)
    (hr : expandLoop events userId (events.length + 1) [a] (a.id :: acc.2) = r) :
    GrouperInv events userId (groupStep events userId acc a) ∧
    (∀ x : String, x ∈ acc.2 → x ∈ (groupStep events userId acc a).2) ∧
    a.id ∈ (groupStep events userId acc a).2 := by
  obtain ⟨parts, hg, hpiff, hparts, hpw, hclose⟩ := hinv
  have hcond : ¬(acc.2.contains a.id = true) :=
    fun hc => ha (containsIffMem.mp hc)
  have hfuel : unprocessedCount events (a.id :: acc.2) < events.length + 1 := by
    have hb := List.length_filter_le
      (fun e => !((a.id :: acc.2).contains e.id)) events
    unfold unprocessedCount
    omega
  obtain ⟨Δ, x1, x2, x3, x4⟩ :=
    expandLoop_spec events userId (events.length + 1) [a] (a.id :: acc.2) hfuel
  rw [hr] at x1 x3 x4
  have hr1 : r.1 = a :: Δ := by
    rw [x1]
    rfl
  have hstep : groupStep events userId acc a =
      if r.1.length > 1 then (acc.1 ++ [r.1], r.2) else (acc.1, r.2) := by
    simp only [groupStep]
    rw [if_neg hcond, hr]
  have hs2 : (groupStep events userId acc a).2 = r.2 := by
    rw [hstep]
    split <;> rfl
  have hpiff' : ∀ x : String, x ∈ r.2 ↔
      ∃ S ∈ parts ++ [r.1], ∃ e ∈ S, e.id = x := by
    intro x
    rw [x3 x]
    constructor
    · rintro (hx | ⟨d, hd, rfl⟩)
      · rcases List.mem_cons.mp hx with heq | hx'
        · refine ⟨r.1, List.mem_append.mpr (Or.inr (List.mem_cons_self _ _)),
            a, ?_, heq.symm⟩
          rw [hr1]
          exact List.mem_cons_self a Δ
        · obtain ⟨S, hS, e, he, hex⟩ := (hpiff x).mp hx'
          exact ⟨S, List.mem_append.mpr (Or.inl hS), e, he, hex⟩
      · refine ⟨r.1, List.mem_append.mpr (Or.inr (List.mem_cons_self _ _)),
          d, ?_, rfl⟩
        rw [hr1]
        exact List.mem_cons_of_mem a hd
    · rintro ⟨S, hS, e, he, rfl⟩
      rcases List.mem_append.mp hS with hSold | hSnew
      · exact Or.inl
          (List.mem_cons_of_mem _ ((hpiff e.id).mpr ⟨S, hSold, e, he, rfl⟩))
      · rcases List.mem_cons.mp hSnew with heq | hfalse
        · rw [heq, hr1] at he
          rcases List.mem_cons.mp he with heq' | he'
          · rw [heq']
            exact Or.inl (List.mem_cons_self _ _)
          · exact Or.inr ⟨e, he', rfl⟩
        · cases hfalse
  have hΔnotacc : ∀ d ∈ Δ, d.id ∉ acc.2 := by
    intro d hd hmem
    exact (x2 d hd).2 (List.mem_cons_of_mem _ hmem)
  have hcross : ∀ S ∈ parts, ∀ e ∈ S, ∀ f ∈ r.1,
      isOverlapping e f userId = false := by
    intro S hS e he f hf
    rw [hr1] at hf
    rcases List.mem_cons.mp hf with heq | hf'
    · rw [heq]
      exact hclose S hS e he a haev ha
    · exact hclose S hS e he f (x2 f hf').1 (hΔnotacc f hf')
  have hinv' : GrouperInv events userId (groupStep events userId acc a) := by
    refine ⟨parts ++ [r.1], ?_, ?_, ?_, ?_, ?_⟩
    · rw [hstep]
      by_cases hlen : r.1.length > 1
      · rw [if_pos hlen]
        have hp : (fun g : List Event => decide (1 < g.length)) r.1 = true :=
          decide_eq_true hlen
        rw [List.filter_append, hg]
        simp [List.filter_cons, hp]
      · rw [if_neg hlen]
        have hp : (fun g : List Event => decide (1 < g.length)) r.1 = false := by
          simp only [decide_eq_false_iff_not]
          exact hlen
        rw [List.filter_append, hg]
        simp [List.filter_cons, hp]
    · rw [hs2]
      exact hpiff'
    · intro S hS
      rcases List.mem_append.mp hS with hSold | hSnew
      · exact hparts S hSold
      · rcases List.mem_cons.mp hSnew with heq | hfalse
        · rw [heq, hr1]
          refine ⟨List.cons_ne_nil a Δ, ?_⟩
          intro e he
          rcases List.mem_cons.mp he with heq' | he'
          · rw [heq']
            exact haev
          · exact (x2 e he').1
        · cases hfalse
    · rw [List.pairwise_append]
      refine ⟨hpw, List.pairwise_singleton _ _, ?_⟩
      intro S hS T hT
      rcases List.mem_cons.mp hT with heq | hfalse
      · rw [heq]
        exact hcross S hS
      · cases hfalse
    · intro S hS e he y hy hyp
      rw [hs2] at hyp
      rcases List.mem_append.mp hS with hSold | hSnew
      · refine hclose S hSold e he y hy ?_
        intro hmem
        exact hyp ((x3 y.id).mpr (Or.inl (List.mem_cons_of_mem _ hmem)))
      · rcases List.mem_cons.mp hSnew with heq | hfalse
        · rw [heq] at he
          exact x4 y hy hyp e he
        · cases hfalse
  refine ⟨hinv', ?_, ?_⟩
  · intro x hx
    rw [hs2]
    exact (x3 x).mpr (Or.inl (List.mem_cons_of_mem _ hx))
  · rw [hs2]
    exact (x3 a.id).mpr (Or.inl (List.mem_cons_self _ _))

/-- The outer fold preserves the invariant, only grows the processed
set, and processes every visited event. -/
theorem groupFold_spec (events : List Event) (userId : String) :
    ∀ l : List Event, (∀ x ∈ l, x ∈ events) →
      ∀ acc : List (List Event) × List String, GrouperInv events userId acc →
        GrouperInv events userId (l.foldl (groupStep events userId) acc) ∧
        (∀ x : String, x ∈ acc.2 →
          x ∈ (l.foldl (groupStep events userId) acc).2) ∧
        (∀ x ∈ l, x.id ∈ (l.foldl (groupStep events userId) acc).2) := by
  intro l
  induction l with
  | nil =>
      intro _ acc hinv
      exact ⟨hinv, fun x hx => hx, by simp⟩
  | cons a l ih =>
      intro hl acc hinv
      simp only [List.foldl_cons]
      by_cases ha : a.id ∈ acc.2
      · have hstep : groupStep events userId acc a = acc := by
          simp [groupStep, ha]
        rw [hstep]
        obtain ⟨hinv', hmono, hcov⟩ :=
          ih (fun x hx => hl x (List.mem_cons_of_mem a hx)) acc hinv
        refine ⟨hinv', hmono, ?_⟩
        intro x hx
        rcases List.mem_cons.mp hx with heq | hx'
        · rw [heq]
          exact hmono a.id ha
        · exact hcov x hx'
      · obtain ⟨hinv1, hmono1, hseed1⟩ :=
          groupSeed_inv events userId acc a ha (hl a (List.mem_cons_self a l))
            hinv _ rfl
        obtain ⟨hinv', hmono, hcov⟩ :=
          ih (fun x hx => hl x (List.mem_cons_of_mem a hx)) _ hinv1
        refine ⟨hinv', fun x hx => hmono x (hmono1 x hx), ?_⟩
        intro x hx
        rcases List.mem_cons.mp hx with heq | hx'
        · rw [heq]
          exact hmono _ hseed1
        · exact hcov x hx'

/-- Two entries of a pairwise-related list that fail the relation in both
directions are the same entry. -/
theorem pairwise_same_of_not_rel {α : Type} {rel : α → α → Prop} :
    ∀ parts : List α, List.Pairwise rel parts →
      ∀ S T : α, S ∈ parts → T ∈ parts → ¬rel S T → ¬rel T S → S = T := by
  intro parts
  induction parts with
  | nil =>
      intro _ S T hS _ _ _
      cases hS
  | cons P ps ih =>
      intro hp S T hS hT hcon hcon'
      obtain ⟨hPrel, hps⟩ := List.pairwise_cons.mp hp
      rcases List.mem_cons.mp hS with heqS | hS'
      · rcases List.mem_cons.mp hT with heqT | hT'
        · rw [heqS, heqT]
        · exact absurd (by rw [heqS]; exact hPrel T hT') hcon
      · rcases List.mem_cons.mp hT with heqT | hT'
        · exact absurd (by rw [heqT]; exact hPrel S hS') hcon'
        · exact ih hps S T hS' hT' hcon hcon'

/-- A list with two distinct members has length at least 2. -/
theorem one_lt_length_of_two_mem {α : Type} {l : List α} {a b : α}
    (ha : a ∈ l) (hb : b ∈ l) (hne : a ≠ b) : 1 < l.length := by
  cases l with
  | nil => cases ha
  | cons c cs =>
      cases cs with
      | nil =>
          rcases List.mem_cons.mp ha with h1 | h1
          · rcases List.mem_cons.mp hb with h2 | h2
            · exact absurd (h1.trans h2.symm) hne
            · cases h2
          · cases h1
      | cons d ds =>
          simp only [List.length_cons]
          omega

/-- C2, counterexample: the grouping does not compute the components of
the (asymmetric) `mayMerge` relation as the claim states.  Here
`evSync` mayMerge `evOne` and `evOne` mayMerge `evOneLate`, yet on the
input order `[evOne, evOneLate, evSync]` the returned groups are just
`[[evOne, evOneLate]]`: no returned group contains all three events —
`evSync` is in no group at all, because the title check inside
`isOverlapping` is direction-sensitive (`"1:1"` vs `"1:1 sync"`). -/
theorem c2_counterexample :
    isOverlapping evSync evOne "u1" = true ∧
    isOverlapping evOne evOneLate "u1" = true ∧
    groupOverlappingEvents [evOne, evOneLate, evSync] "u1" =
      [[evOne, evOneLate]] ∧
    ((groupOverlappingEvents [evOne, evOneLate, evSync] "u1").all
      fun g => !(g.contains evSync)) = true := by decide

/-- C2 (amended): every returned group has size at least 2 (singletons
are never returned), and the transitive-closure grouping property holds
provided the pairwise `mayMerge` relation is symmetric on the candidate
list (the counterexample shows it can fail otherwise) and event ids are
distinct: whenever A mayMerge B and B mayMerge C (not all three equal),
A, B and C end up in one returned group, even if A and C individually
fail the pairwise test. -/
theorem c2_grouping_amended :
    (∀ (events : List Event) (userId : String),
        ∀ g ∈ groupOverlappingEvents events userId, 2 ≤ g.length) ∧
    (∀ (events : List Event) (userId : String),
        (events.map Event.id).Nodup →
        (∀ a ∈ events, ∀ b ∈ events,
          isOverlapping a b userId = isOverlapping b a userId) →
        ∀ A ∈ events, ∀ B ∈ events, ∀ C ∈ events,
          isOverlapping A B userId = true →
          isOverlapping B C userId = true →
          ¬(A = B ∧ B = C) →
          ∃ g ∈ groupOverlappingEvents events userId,
            A ∈ g ∧ B ∈ g ∧ C ∈ g) := by
  have hbase : ∀ (events : List Event) (userId : String),
      GrouperInv events userId (([], []) :
        List (List Event) × List String) :=
    fun events userId =>
      ⟨[], by simp, by simp, by simp, List.Pairwise.nil, by simp⟩
  constructor
  · intro events userId g hg
    obtain ⟨hinv, -, -⟩ := groupFold_spec events userId events
      (fun x hx => hx) ([], []) (hbase events userId)
    obtain ⟨parts, hgs, -, -, -, -⟩ := hinv
    have hg' : g ∈ (events.foldl (groupStep events userId) ([], [])).1 := hg
    rw [hgs] at hg'
    obtain ⟨-, hlen⟩ := List.mem_filter.mp hg'
    have hl := of_decide_eq_true hlen
    omega
  · intro events userId hnodup hsym A hA B hB C hC hAB hBC hne
    obtain ⟨hinv, -, hcov⟩ := groupFold_spec events userId events
      (fun x hx => hx) ([], []) (hbase events userId)
    obtain ⟨parts, hgs, hpiff, hparts, hpw, -⟩ := hinv
    have hfind : ∀ X ∈ events, ∃ S ∈ parts, X ∈ S := by
      intro X hX
      obtain ⟨S, hS, e, he, hei⟩ := (hpiff X.id).mp (hcov X hX)
      have heX : e = X :=
        List.inj_on_of_nodup_map hnodup ((hparts S hS).2 e he) hX hei
      exact ⟨S, hS, heX ▸ he⟩
    obtain ⟨SA, hSA, hASA⟩ := hfind A hA
    obtain ⟨SB, hSB, hBSB⟩ := hfind B hB
    obtain ⟨SC, hSC, hCSC⟩ := hfind C hC
    have hsame : ∀ S ∈ parts, ∀ T ∈ parts, ∀ X ∈ S, ∀ Y ∈ T,
        X ∈ events → Y ∈ events → isOverlapping X Y userId = true →
        S = T := by
      intro S hS T hT X hX Y hY hXe hYe hedge
      refine pairwise_same_of_not_rel parts hpw S T hS hT ?_ ?_
      · intro hrel
        rw [hrel X hX Y hY] at hedge
        cases hedge
      · intro hrel
        rw [hsym X hXe Y hYe, hrel Y hY X hX] at hedge
        cases hedge
    have hS_AB : SA = SB := hsame SA hSA SB hSB A hASA B hBSB hA hB hAB
    have hS_BC : SB = SC := hsame SB hSB SC hSC B hBSB C hCSC hB hC hBC
    have hA' : A ∈ SB := by
      rw [← hS_AB]
      exact hASA
    have hC' : C ∈ SB := by
      rw [hS_BC]
      exact hCSC
    have hlen : 1 < SB.length := by
      by_cases hABeq : A = B
      · exact one_lt_length_of_two_mem hBSB hC'
          fun h => hne ⟨hABeq, h⟩
      · exact one_lt_length_of_two_mem hA' hBSB hABeq
    refine ⟨SB, ?_, hA', hBSB, hC'⟩
    show SB ∈ (events.foldl (groupStep events userId) ([], [])).1
    rw [hgs]
    exact List.mem_filter.mpr ⟨hSB, decide_eq_true hlen⟩

/-- C2, witness for the amended theorem at a concrete symmetric input. -/
theorem c2_grouping_witness :
    2 ≤ ([evPlanning, evBudget] : List Event).length ∧
    ∃ g ∈ groupOverlappingEvents [evPlanning, evBudget] "u1",
      evPlanning ∈ g ∧ evBudget ∈ g ∧ evBudget ∈ g :=
  ⟨c2_grouping_amended.1 [evPlanning, evBudget] "u1"
      [evPlanning, evBudget] (by decide),
   c2_grouping_amended.2 [evPlanning, evBudget] "u1" (by decide) (by decide)
      evPlanning (by decide) evBudget (by decide) evBudget (by decide)
      (by decide) (by decide) (by decide)⟩

/-! ## Merge orchestrator (`mergeAll`, lines 368-501)

The orchestrator's collaborators are modelled explicitly: the user lookup
by a `userExists` flag, the event store and audit table as lists in a
`PersistState`, persistence failures by a fault assignment on the three
persistence operations (each repository call is a separate operation —
there is no transaction around them in the source), and the summarizer
wiring by a `SummarizerConfig` (queue present/absent, AI service
present/absent, and whether each fails). -/

/-- Error taxonomy of the failing validation phases: `userNotFound` is
the `NotFoundException`, the other three are `BadRequestException`s
(`ValidationError`s) with the distinct messages of lines 386, 396, 404. -/
inductive MergeError
  | userNotFound
  | needTwoEvents
  | needTwoNonCanceled
  | noOverlap
deriving DecidableEq, Repr

/-- The `reduce` of lines 407-409 picking the largest group (strictly
greater: first-encountered group wins ties). -/
def selectLargest (g : List Event) (gs : List (List Event)) : List Event :=
  gs.foldl
    (fun prev current =>
      if current.length > prev.length then current else prev) g

/-- The load query of lines 377-383: events whose creator or some
invitee is the invoking user. -/
def loadEventsInvolving (store : List Event) (userId : String) : List Event :=
  store.filter fun e =>
    e.creator.id == userId || e.invitees.any fun u => u.id == userId

/-- Validation, CANCELED pre-filter, grouping and group selection of
`mergeAll` (lines 385-410), on the loaded event list. -/
def mergeAllSelect (userExists : Bool) (userId : String)
    (events : List Event) : Except MergeError (List Event) :=
  if !userExists then Except.error MergeError.userNotFound
  else if events.length < 2 then Except.error MergeError.needTwoEvents
  else
    let mergeableEvents := events.filter fun e =>
      decide (e.status ≠ EventStatus.CANCELED)
    if mergeableEvents.length < 2 then
      Except.error MergeError.needTwoNonCanceled
    else
      match groupOverlappingEvents mergeableEvents userId with
      | [] => Except.error MergeError.noOverlap
      | g :: gs => Except.ok (selectLargest g gs)

/-- An audit row (`audit-log.entity.ts`). -/
structure AuditLog where
  id : String
  userId : String
  newEventId : String
  mergedEventIds : List String
  notes : Option String
deriving DecidableEq, Repr

/-- The event row persisted for a merged draft, with its store-assigned
id. -/
def eventOfDraft (newId : String) (m : MergedDraft) : Event :=
  ⟨newId, m.title, m.description, m.status, m.startTime, m.endTime,
   m.creator, m.invitees, some m.mergedFrom⟩

/-- The three separate persistence operations of the merge: the insert
of the merged event and the removal of the sources (lines 698-700 inside
`mergeEvents`), then the audit-row insert (lines 437-444). -/
inductive PersistOp
  | insertEvent
  | removeEvents
  | insertAudit
deriving DecidableEq, Repr

/-- Observable persistent state: event rows and audit rows. -/
structure PersistState where
  events : List Event
  audits : List AuditLog
deriving DecidableEq, Repr

/-- The persisting step, with fault injection: each operation either
applies its effect or raises (returning the operation that failed and
the state as left behind by the operations already performed — the
source wraps none of this in a transaction). -/
def persistMerge (faults : PersistOp → Bool) (newId auditId userId : String)
    (group : List Event) (m : MergedDraft) (st : PersistState) :
    PersistState × Option PersistOp :=
  if faults PersistOp.insertEvent then (st, some PersistOp.insertEvent)
  else
    let st1 : PersistState := ⟨st.events ++ [eventOfDraft newId m], st.audits⟩
    if faults PersistOp.removeEvents then (st1, some PersistOp.removeEvents)
    else
      let st2 : PersistState :=
        ⟨st1.events.filter fun e => !((group.map Event.id).contains e.id),
         st1.audits⟩
      if faults PersistOp.insertAudit then (st2, some PersistOp.insertAudit)
      else
        let al : AuditLog := ⟨auditId, userId, newId, group.map Event.id, none⟩
        (⟨st2.events, st2.audits ++ [al]⟩, none)

/-- Wiring and outcome of the summarizer collaborators. -/
structure SummarizerConfig where
  hasQueue : Bool
  hasAi : Bool
  queueAddFails : Bool
  aiFails : Bool
  aiSummary : String
deriving DecidableEq, Repr

/-- Observable outcome of the summarizing phase: the final value of the
audit `notes` at the end of the orchestration, whether the synchronous
summarizer was invoked, and whether an async job was queued. -/
structure SummarizeOutcome where
  notes : Option String
  syncCalled : Bool
  queuedJob : Bool
deriving DecidableEq, Repr

/-- The deterministic fallback note (lines 472, 485, 489). -/
def fallbackNote (n : Nat) : String :=
  "Merged " ++ toString n ++ " overlapping events"

/-- The summarizing phase of `mergeAll` (lines 446-491): queue preferred
when both queue and AI service are wired; on queue failure the fallback
note is written directly; without a queue the AI service is called
synchronously, with the fallback note on failure; without an AI service
the fallback note is written immediately.  On a successful async handoff
`notes` stays `null` until the background worker updates it. -/
def summarizePhase (cfg : SummarizerConfig) (groupSize : Nat) :
    SummarizeOutcome :=
  if cfg.hasQueue && cfg.hasAi then
    if cfg.queueAddFails then ⟨some (fallbackNote groupSize), false, false⟩
    else ⟨none, false, true⟩
  else if cfg.hasAi then
    if cfg.aiFails then ⟨some (fallbackNote groupSize), true, false⟩
    else ⟨some cfg.aiSummary, true, false⟩
  else ⟨some (fallbackNote groupSize), false, false⟩

/-- A failed merge orchestration: a validation error or the persistence
operation whose exception propagated. -/
inductive MergeFailure
  | validation (e : MergeError)
  | persistence (op : PersistOp)
deriving DecidableEq, Repr

/-- The full `mergeAll(userId)` orchestration (lines 368-501) as a state
transformer: load, validate, group, select, synthesize, persist (with
the injected faults), then summarize best-effort and update the audit
notes; returns the final state and either the merged event with its
audit view or the propagated failure. -/
def mergeAll (userExists : Bool) (userId newId auditId : String)
    (faults : PersistOp → Bool) (cfg : SummarizerConfig)
    (st : PersistState) : PersistState × Except MergeFailure (Event × AuditLog) :=
  match mergeAllSelect userExists userId
      (loadEventsInvolving st.events userId) with
  | Except.error e => (st, Except.error (MergeFailure.validation e))
  | Except.ok group =>
      match mergeEvents group with
      | none => (st, Except.error (MergeFailure.validation MergeError.noOverlap))
      | some m =>
          match persistMerge faults newId auditId userId group m st with
          | (st1, some op) => (st1, Except.error (MergeFailure.persistence op))
          | (st1, none) =>
              match (summarizePhase cfg group.length).notes with
              | none =>
                  (st1, Except.ok (eventOfDraft newId m,
                    ⟨auditId, userId, newId, group.map Event.id, none⟩))
              | some nn =>
                  (⟨st1.events, st1.audits.map fun al =>
                      if al.id = auditId then
                        ⟨al.id, al.userId, al.newEventId, al.mergedEventIds,
                         some nn⟩
                      else al⟩,
                   Except.ok (eventOfDraft newId m,
                    ⟨auditId, userId, newId, group.map Event.id, some nn⟩))

end EventCollab

namespace EventCollab

/-- The `reduce` picking the largest group returns a group of the input
list such that every group before it is strictly smaller (ties are won
by the first-encountered group) and every group after it is no larger. -/
theorem selectLargest_spec :
    ∀ (gs : List (List Event)) (g : List Event),
      ∃ pre post, g :: gs = pre ++ selectLargest g gs :: post ∧
        (∀ S ∈ pre, S.length < (selectLargest g gs).length) ∧
        (∀ S ∈ post, S.length ≤ (selectLargest g gs).length) := by
  intro gs
  induction gs with
  | nil =>
      intro g
      exact ⟨[], [], rfl, by simp, by simp⟩
  | cons c rest ih =>
      intro g
      have hsel : selectLargest g (c :: rest) =
          selectLargest (if c.length > g.length then c else g) rest := rfl
      by_cases hc : c.length > g.length
      · rw [hsel, if_pos hc]
        obtain ⟨pre, post, hdec, hpre, hpost⟩ := ih c
        have hcle : c.length ≤ (selectLargest c rest).length := by
          cases pre with
          | nil =>
              simp only [List.nil_append] at hdec
              injection hdec with h1 h2
              exact le_of_eq (by rw [← h1])
          | cons p ps =>
              injection hdec with h1 h2
              have hlen : c.length = p.length := by rw [h1]
              rw [hlen]
              exact le_of_lt (hpre p (List.mem_cons_self p ps))
        refine ⟨g :: pre, post, ?_, ?_, hpost⟩
        · rw [List.cons_append, ← hdec]
        · intro S hS
          rcases List.mem_cons.mp hS with heq | hS'
          · rw [heq]
            omega
          · exact hpre S hS'
      · rw [hsel, if_neg hc]
        obtain ⟨pre, post, hdec, hpre, hpost⟩ := ih g
        have hcg : c.length ≤ g.length := by omega
        cases pre with
        | nil =>
            simp only [List.nil_append] at hdec
            injection hdec with h1 h2
            refine ⟨[], c :: post, ?_, by simp, ?_⟩
            · simp only [List.nil_append]
              rw [← h1, ← h2]
            · intro S hS
              rcases List.mem_cons.mp hS with heq | hS'
              · rw [heq, ← h1]
                exact hcg
              · exact hpost S hS'
        | cons p ps =>
            injection hdec with h1 h2
            have h2' : rest = ps ++ selectLargest g rest :: post := h2
            refine ⟨p :: c :: ps, post, ?_, ?_, hpost⟩
            · rw [List.cons_append, List.cons_append, ← h1, ← h2']
            · intro S hS
              rcases List.mem_cons.mp hS with heq | hS'
              · rw [heq]
                exact hpre p (List.mem_cons_self p ps)
              · rcases List.mem_cons.mp hS' with heq' | hS''
                · rw [heq']
                  calc c.length ≤ g.length := hcg
                    _ = p.length := by rw [h1]
                    _ < _ := hpre p (List.mem_cons_self p ps)
                · exact hpre S (List.mem_cons_of_mem p hS'')

/-- Every returned group has size at least 2. -/
theorem groups_two_le (events : List Event) (userId : String) :
    ∀ g ∈ groupOverlappingEvents events userId, 2 ≤ g.length := by
  intro g hg
  obtain ⟨hinv, -, -⟩ := groupFold_spec events userId events (fun x hx => hx)
    ([], []) ⟨[], by simp, by simp, by simp, List.Pairwise.nil, by simp⟩
  obtain ⟨parts, hgs, -, -, -, -⟩ := hinv
  have hg' : g ∈ (events.foldl (groupStep events userId) ([], [])).1 := hg
  rw [hgs] at hg'
  obtain ⟨-, hlen⟩ := List.mem_filter.mp hg'
  have hl := of_decide_eq_true hlen
  omega

/-- Members of returned groups come from the input list. -/
theorem groups_subset (events : List Event) (userId : String) :
    ∀ g ∈ groupOverlappingEvents events userId, ∀ e ∈ g, e ∈ events := by
  intro g hg e he
  obtain ⟨hinv, -, -⟩ := groupFold_spec events userId events (fun x hx => hx)
    ([], []) ⟨[], by simp, by simp, by simp, List.Pairwise.nil, by simp⟩
  obtain ⟨parts, hgs, -, hparts, -, -⟩ := hinv
  have hg' : g ∈ (events.foldl (groupStep events userId) ([], [])).1 := hg
  rw [hgs] at hg'
  obtain ⟨hgp, -⟩ := List.mem_filter.mp hg'
  exact (hparts g hgp).2 e he

/-! ## Claim C5: pairs sharing only the invoking user -/

/-- A pass over a group none of whose members overlaps any unprocessed
event changes nothing. -/
theorem scanFold_noEdge (events : List Event) (userId : String) :
    ∀ l : List Event, (∀ y ∈ l, y ∈ events) →
      ∀ (g : List Event) (p : List String),
        (∀ e ∈ g, ∀ y ∈ events, y.id ∉ p →
          isOverlapping e y userId = false) →
        l.foldl (scanStep userId) (g, p, false) = (g, p, false) := by
  intro l
  induction l with
  | nil =>
      intro _ g p _
      rfl
  | cons a l ih =>
      intro hl g p h
      simp only [List.foldl_cons]
      by_cases ha : a.id ∈ p
      · have hstep : scanStep userId (g, p, false) a = (g, p, false) := by
          simp [scanStep, ha]
        rw [hstep]
        exact ih (fun y hy => hl y (List.mem_cons_of_mem a hy)) g p h
      · have hany : (g.any fun e => isOverlapping e a userId) = false := by
          rw [List.any_eq_false]
          intro e he
          rw [h e he a (hl a (List.mem_cons_self a l)) ha]
          simp
        have hstep : scanStep userId (g, p, false) a = (g, p, false) := by
          simp [scanStep, ha, hany]
        rw [hstep]
        exact ih (fun y hy => hl y (List.mem_cons_of_mem a hy)) g p h

/-- A seed that overlaps no unprocessed event expands to a singleton. -/
theorem expandLoop_noEdge (events : List Event) (userId : String)
    (fuel : Nat) (a : Event) (P : List String) (hfuel : 0 < fuel)
    (h : ∀ y ∈ events, y.id ∉ (a.id :: P) →
      isOverlapping a y userId = false) :
    expandLoop events userId fuel [a] (a.id :: P) = ([a], a.id :: P) := by
  cases fuel with
  | zero => omega
  | succ fuel =>
      have hpass : passOnce events userId [a] (a.id :: P) =
          ([a], a.id :: P, false) := by
        simp only [passOnce]
        refine scanFold_noEdge events userId events (fun y hy => hy) [a]
          (a.id :: P) ?_
        intro e he y hy hyp
        rcases List.mem_cons.mp he with heq | hfalse
        · rw [heq]
          exact h y hy hyp
        · cases hfalse
      simp only [expandLoop]
      rw [hpass]
      simp

/-- If no two distinct-id events of the input overlap pairwise, the
grouper returns no groups at all. -/
theorem groupFold_noEdge (events : List Event) (userId : String)
    (h : ∀ a ∈ events, ∀ b ∈ events, a.id ≠ b.id →
      isOverlapping a b userId = false) :
    ∀ l : List Event, (∀ x ∈ l, x ∈ events) →
      ∀ P : List String,
        (l.foldl (groupStep events userId) ([], P)).1 = [] := by
  intro l
  induction l with
  | nil =>
      intro _ P
      rfl
  | cons a l ih =>
      intro hl P
      simp only [List.foldl_cons]
      by_cases ha : a.id ∈ P
      · have hstep : groupStep events userId ([], P) a = ([], P) := by
          simp [groupStep, ha]
        rw [hstep]
        exact ih (fun x hx => hl x (List.mem_cons_of_mem a hx)) P
      · have hexp : expandLoop events userId (events.length + 1) [a]
            (a.id :: P) = ([a], a.id :: P) := by
          refine expandLoop_noEdge events userId _ a P (by omega) ?_
          intro y hy hyp
          have hne : a.id ≠ y.id := fun heq => hyp (by
            rw [← heq]
            exact List.mem_cons_self _ _)
          exact h a (hl a (List.mem_cons_self a l)) y hy hne
        have hstep : groupStep events userId ([], P) a = ([], a.id :: P) := by
          simp only [groupStep]
          rw [if_neg (fun hc : P.contains a.id = true =>
            ha (containsIffMem.mp hc))]
          rw [hexp]
          simp
        rw [hstep]
        exact ih (fun x hx => hl x (List.mem_cons_of_mem a hx)) (a.id :: P)

/-- Event whose only participant besides the user is Bob. -/
def evAlphaBob : Event :=
  ⟨"e-x", "Alpha", none, EventStatus.TODO, 0, 10, alice, [bob], none⟩

/-- Event whose only participant besides the user is Cara. -/
def evBetaCara : Event :=
  ⟨"e-y", "Beta", none, EventStatus.TODO, 0, 10, alice, [cara], none⟩

/-- C5: a pair of events whose full participant sets (creator plus
invitees), after removing the invoking user's id, have empty
intersection never satisfies `isOverlapping`; consequently a candidate
set of at least 2 events (at least 2 non-canceled) consisting only of
such pairs makes `mergeAll` fail with the `ValidationError`
`'No overlapping events found to merge'` instead of merging anything. -/
theorem c5_onlyCommonUser :
    (∀ (e1 e2 : Event) (userId : String),
        (∀ i ∈ participantIds e1, i ≠ userId → i ∉ participantIds e2) →
        isOverlapping e1 e2 userId = false) ∧
    (∀ (userId : String) (events : List Event),
        2 ≤ events.length →
        2 ≤ (events.filter fun e =>
            decide (e.status ≠ EventStatus.CANCELED)).length →
        (∀ a ∈ events, ∀ b ∈ events, a.id ≠ b.id →
          ∀ i ∈ participantIds a, i ≠ userId → i ∉ participantIds b) →
        mergeAllSelect true userId events =
          Except.error MergeError.noOverlap) := by
  have hpair : ∀ (e1 e2 : Event) (userId : String),
      (∀ i ∈ participantIds e1, i ≠ userId → i ∉ participantIds e2) →
      isOverlapping e1 e2 userId = false := by
    intro e1 e2 userId h
    have hcp : hasCommonParticipant e1 e2 userId = false := by
      rw [show hasCommonParticipant e1 e2 userId =
          ((participantsExcluding e1 userId).any fun i =>
            (participantsExcluding e2 userId).contains i) from rfl]
      rw [List.any_eq_false]
      intro i hi
      obtain ⟨hip, hineq⟩ := List.mem_filter.mp hi
      have hne : i ≠ userId := of_decide_eq_true hineq
      intro hcont
      have hmem2 := (List.mem_filter.mp (containsIffMem.mp hcont)).1
      exact h i hip hne hmem2
    cases ht : timeOverlaps e1 e2
    · simp [isOverlapping, ht]
    · simp [isOverlapping, ht, hcp]
  refine ⟨hpair, ?_⟩
  intro userId events h2 hm2 hcond
  have hgroups : groupOverlappingEvents
      (events.filter fun e => decide (e.status ≠ EventStatus.CANCELED))
      userId = [] := by
    refine groupFold_noEdge
      (events.filter fun e => decide (e.status ≠ EventStatus.CANCELED))
      userId ?_
      (events.filter fun e => decide (e.status ≠ EventStatus.CANCELED))
      (fun x hx => hx) []
    intro a haf b hbf hne
    exact hpair a b userId
      (hcond a (List.mem_filter.mp haf).1 b (List.mem_filter.mp hbf).1 hne)
  simp only [mergeAllSelect]
  rw [if_neg (by simp), if_neg (by omega), if_neg (by omega), hgroups]

/-- C5, witness at a concrete pair sharing only the invoking user. -/
theorem c5_onlyCommonUser_witness :
    isOverlapping evAlphaBob evBetaCara "u1" = false ∧
    mergeAllSelect true "u1" [evAlphaBob, evBetaCara] =
      Except.error MergeError.noOverlap :=
  ⟨c5_onlyCommonUser.1 evAlphaBob evBetaCara "u1" (by decide),
   c5_onlyCommonUser.2 "u1" [evAlphaBob, evBetaCara] (by decide) (by decide)
     (by decide)⟩

/-! ## Claim C7: the persisting step -/

/-- C7, counterexample: the persisting step is not atomic.  With the
removal of the source events failing after the insert of the merged
event succeeded, the failure is reported, yet the observable store
contains BOTH the two source events AND the new merged event (a mix),
and no audit row — partial state is observable, contradicting the
claimed all-or-nothing behavior (the source wraps the three repository
calls in no transaction). -/
theorem c7_persist_counterexample :
    (persistMerge (fun op => decide (op = PersistOp.removeEvents)) "new-1"
        "a-1" "u1" [evPlanning, evBudget] (mergeSorted evPlanning [evBudget])
        ⟨[evPlanning, evBudget], []⟩).2 = some PersistOp.removeEvents ∧
    (persistMerge (fun op => decide (op = PersistOp.removeEvents)) "new-1"
        "a-1" "u1" [evPlanning, evBudget] (mergeSorted evPlanning [evBudget])
        ⟨[evPlanning, evBudget], []⟩).1.events =
      [evPlanning, evBudget,
       eventOfDraft "new-1" (mergeSorted evPlanning [evBudget])] ∧
    (persistMerge (fun op => decide (op = PersistOp.removeEvents)) "new-1"
        "a-1" "u1" [evPlanning, evBudget] (mergeSorted evPlanning [evBudget])
        ⟨[evPlanning, evBudget], []⟩).1.audits = ([] : List AuditLog) := by
  decide

/-- C7 (amended): the persisting step is three sequential repository
operations, not one atomic unit.  Every failure propagates to the caller
(never silently swallowed) and aborts the remaining operations — in
particular `mergeAll` returns the persistence failure without reaching
the summarizing phase — but the effects of already-completed operations
remain observable: an insert failure leaves the state unchanged, a
removal failure leaves both the sources and the inserted merged event, an
audit-insert failure leaves the merged event inserted and the sources
deleted with no audit row; only when all three succeed does the state
hold the merged event, lack the sources, and hold one audit row with
`notes = null`. -/
theorem c7_persistSteps_amended :
    (∀ (faults : PersistOp → Bool) (newId auditId userId : String)
        (group : List Event) (m : MergedDraft) (st : PersistState),
      (faults PersistOp.insertEvent = true →
        persistMerge faults newId auditId userId group m st =
          (st, some PersistOp.insertEvent)) ∧
      (faults PersistOp.insertEvent = false →
        faults PersistOp.removeEvents = true →
        persistMerge faults newId auditId userId group m st =
          (⟨st.events ++ [eventOfDraft newId m], st.audits⟩,
           some PersistOp.removeEvents)) ∧
      (faults PersistOp.insertEvent = false →
        faults PersistOp.removeEvents = false →
        faults PersistOp.insertAudit = true →
        persistMerge faults newId auditId userId group m st =
          (⟨(st.events ++ [eventOfDraft newId m]).filter
              (fun e => !((group.map Event.id).contains e.id)), st.audits⟩,
           some PersistOp.insertAudit)) ∧
      (faults PersistOp.insertEvent = false →
        faults PersistOp.removeEvents = false →
        faults PersistOp.insertAudit = false →
        persistMerge faults newId auditId userId group m st =
          (⟨(st.events ++ [eventOfDraft newId m]).filter
              (fun e => !((group.map Event.id).contains e.id)),
            st.audits ++
              [⟨auditId, userId, newId, group.map Event.id, none⟩]⟩,
           none))) ∧
    (∀ (userExists : Bool) (userId newId auditId : String)
        (faults : PersistOp → Bool) (cfg : SummarizerConfig)
        (st st1 : PersistState) (group : List Event) (m : MergedDraft)
        (op : PersistOp),
      mergeAllSelect userExists userId
          (loadEventsInvolving st.events userId) = Except.ok group →
      mergeEvents group = some m →
      persistMerge faults newId auditId userId group m st =
        (st1, some op) →
      mergeAll userExists userId newId auditId faults cfg st =
        (st1, Except.error (MergeFailure.persistence op))) := by
  constructor
  · intro faults newId auditId userId group m st
    refine ⟨?_, ?_, ?_, ?_⟩
    · intro h1
      simp [persistMerge, h1]
    · intro h1 h2
      simp [persistMerge, h1, h2]
    · intro h1 h2 h3
      simp [persistMerge, h1, h2, h3]
    · intro h1 h2 h3
      simp [persistMerge, h1, h2, h3]
  · intro userExists userId newId auditId faults cfg st st1 group m op
      hsel hm hp
    simp only [mergeAll, hsel, hm, hp]

/-- C7, witness: the success case at a concrete store and the in-context
propagation of a concrete removal failure through `mergeAll`. -/
theorem c7_persistSteps_witness :
    persistMerge (fun _ => false) "new-1" "a-1" "u1"
        [evPlanning, evBudget] (mergeSorted evPlanning [evBudget])
        ⟨[evPlanning, evBudget], []⟩ =
      (⟨([evPlanning, evBudget] ++
          [eventOfDraft "new-1" (mergeSorted evPlanning [evBudget])]).filter
            (fun e =>
              !((([evPlanning, evBudget] : List Event).map
                Event.id).contains e.id)),
        ([] : List AuditLog) ++
          [⟨"a-1", "u1", "new-1",
            ([evPlanning, evBudget] : List Event).map Event.id, none⟩]⟩,
       none) ∧
    mergeAll true "u1" "new-1" "a-1"
        (fun op => decide (op = PersistOp.removeEvents))
        ⟨false, false, false, false, ""⟩ ⟨[evPlanning, evBudget], []⟩ =
      (⟨[evPlanning, evBudget,
          eventOfDraft "new-1" (mergeSorted evPlanning [evBudget])], []⟩,
       Except.error (MergeFailure.persistence PersistOp.removeEvents)) :=
  ⟨(c7_persistSteps_amended.1 (fun _ => false) "new-1" "a-1" "u1"
      [evPlanning, evBudget] (mergeSorted evPlanning [evBudget])
      ⟨[evPlanning, evBudget], []⟩).2.2.2 rfl rfl rfl,
   c7_persistSteps_amended.2 true "u1" "new-1" "a-1"
      (fun op => decide (op = PersistOp.removeEvents))
      ⟨false, false, false, false, ""⟩ ⟨[evPlanning, evBudget], []⟩
      ⟨[evPlanning, evBudget,
        eventOfDraft "new-1" (mergeSorted evPlanning [evBudget])], []⟩
      [evPlanning, evBudget] (mergeSorted evPlanning [evBudget])
      PersistOp.removeEvents (by rfl) (by decide) (by decide)⟩

/-! ## Claim C8: the summarizing phase -/

/-- Whether an orchestration result is a success. -/
def resultOk (r : Except MergeFailure (Event × AuditLog)) : Bool :=
  match r with
  | Except.ok _ => true
  | Except.error _ => false

/-- C8, counterexample: on async handoff failure `mergeAll` does NOT
fall back to a synchronous summarizer call — it writes the deterministic
fallback note directly (`syncCalled = false`); and on a successful async
handoff the audit `notes` is still `null` when the orchestration
completes (the background worker updates it later), so the notes field
is not always non-null at completion. -/
theorem c8_summarize_counterexample :
    (summarizePhase ⟨true, true, true, false, "AI summary"⟩ 2).syncCalled =
      false ∧
    (summarizePhase ⟨true, true, true, false, "AI summary"⟩ 2).notes =
      some (fallbackNote 2) ∧
    fallbackNote 2 = "Merged 2 overlapping events" ∧
    (summarizePhase ⟨true, true, false, false, "AI summary"⟩ 2).notes =
      none := by decide

/-- C8 (amended): summarization never fails the merge — the orchestration
outcome is independent of the summarizer configuration.  On async
handoff failure the deterministic note `"Merged {N} overlapping events"`
is written directly, with no synchronous summarizer call; the
synchronous summarizer is called exactly when no queue is configured and
an AI service exists, its failure resolving to the fallback note; with
no AI service the fallback note is written immediately; `notes` is still
`null` at the end of the orchestration exactly on a successful async
handoff. -/
theorem c8_summarizeFallback_amended :
    (∀ (cfg : SummarizerConfig) (n : Nat),
      (cfg.hasQueue = true → cfg.hasAi = true → cfg.queueAddFails = true →
        summarizePhase cfg n = ⟨some (fallbackNote n), false, false⟩) ∧
      (cfg.hasQueue = false → cfg.hasAi = true →
        summarizePhase cfg n =
          ⟨some (if cfg.aiFails then fallbackNote n else cfg.aiSummary),
           true, false⟩) ∧
      (cfg.hasAi = false →
        summarizePhase cfg n = ⟨some (fallbackNote n), false, false⟩) ∧
      ((summarizePhase cfg n).notes = none ↔
        (cfg.hasQueue = true ∧ cfg.hasAi = true ∧
          cfg.queueAddFails = false))) ∧
    (∀ (userExists : Bool) (userId newId auditId : String)
        (faults : PersistOp → Bool) (cfg cfg' : SummarizerConfig)
        (st : PersistState),
      resultOk (mergeAll userExists userId newId auditId faults cfg st).2 =
        resultOk
          (mergeAll userExists userId newId auditId faults cfg' st).2) := by
  constructor
  · intro cfg n
    obtain ⟨hq, hai, hqf, haf, hsum⟩ := cfg
    refine ⟨?_, ?_, ?_, ?_⟩
    · intro h1 h2 h3
      subst h1
      subst h2
      subst h3
      rfl
    · intro h1 h2
      subst h1
      subst h2
      cases haf <;> rfl
    · intro h1
      subst h1
      cases hq <;> rfl
    · cases hq <;> cases hai <;> cases hqf <;> cases haf <;>
        simp [summarizePhase]
  · intro userExists userId newId auditId faults cfg cfg' st
    cases hsel : mergeAllSelect userExists userId
        (loadEventsInvolving st.events userId) with
    | error e => simp [mergeAll, hsel]
    | ok group =>
        cases hm : mergeEvents group with
        | none => simp [mergeAll, hsel, hm]
        | some m =>
            rcases hp : persistMerge faults newId auditId userId group m st
              with ⟨st1, o⟩
            cases o with
            | some op => simp [mergeAll, hsel, hm, hp]
            | none =>
                cases hnote : (summarizePhase cfg group.length).notes <;>
                  cases hnote' : (summarizePhase cfg' group.length).notes <;>
                    simp [mergeAll, hsel, hm, hp, hnote, hnote', resultOk]

/-- C8, witness: the synchronous-failure path resolves to the fallback
note at a concrete configuration, and the orchestration outcome is
unaffected by swapping summarizer configurations on a concrete store. -/
theorem c8_summarizeFallback_witness :
    summarizePhase ⟨false, true, false, true, "Summary"⟩ 3 =
      ⟨some (fallbackNote 3), true, false⟩ ∧
    resultOk (mergeAll true "u1" "n1" "a1" (fun _ => false)
        ⟨true, true, false, false, "x"⟩ ⟨[], []⟩).2 =
      resultOk (mergeAll true "u1" "n1" "a1" (fun _ => false)
        ⟨false, false, false, false, ""⟩ ⟨[], []⟩).2 :=
  ⟨(c8_summarizeFallback_amended.1 ⟨false, true, false, true, "Summary"⟩
      3).2.1 rfl rfl,
   c8_summarizeFallback_amended.2 true "u1" "n1" "a1" (fun _ => false)
      ⟨true, true, false, false, "x"⟩ ⟨false, false, false, false, ""⟩
      ⟨[], []⟩⟩

/-! ## Claim C4: largest-group selection and the storage frame -/

/-- C4: when grouping yields multiple disjoint eligible groups, the
orchestration (with all persistence operations succeeding) selects
exactly the group of maximum member count, ties broken by
first-encountered order: the selected group `S` has every earlier group
strictly smaller and every later group no larger.  Only `S`'s members
are deleted: every stored event outside `S` is still in storage
afterwards, every event in the final storage is either the new merged
event or an untouched old event outside `S`, and the merged event is
present. -/
theorem c4_largestGroupMerge (st : PersistState)
    (userId newId auditId : String) (cfg : SummarizerConfig)
    (hload2 : 2 ≤ (loadEventsInvolving st.events userId).length)
    (hmerge2 : 2 ≤ ((loadEventsInvolving st.events userId).filter fun e =>
        decide (e.status ≠ EventStatus.CANCELED)).length)
    (hgroups : 2 ≤ (groupOverlappingEvents
        ((loadEventsInvolving st.events userId).filter fun e =>
          decide (e.status ≠ EventStatus.CANCELED)) userId).length)
    (hfresh : newId ∉ st.events.map Event.id) :
    ∃ (S : List Event) (pre post : List (List Event)) (m : MergedDraft),
      groupOverlappingEvents
          ((loadEventsInvolving st.events userId).filter fun e =>
            decide (e.status ≠ EventStatus.CANCELED)) userId =
        pre ++ S :: post ∧
      (∀ g ∈ pre, g.length < S.length) ∧
      (∀ g ∈ post, g.length ≤ S.length) ∧
      mergeAllSelect true userId (loadEventsInvolving st.events userId) =
        Except.ok S ∧
      mergeEvents S = some m ∧
      (∀ e ∈ st.events, e.id ∉ S.map Event.id →
        e ∈ (mergeAll true userId newId auditId (fun _ => false) cfg
          st).1.events) ∧
      (∀ e ∈ (mergeAll true userId newId auditId (fun _ => false) cfg
          st).1.events,
        e = eventOfDraft newId m ∨
          (e ∈ st.events ∧ e.id ∉ S.map Event.id)) ∧
      eventOfDraft newId m ∈
        (mergeAll true userId newId auditId (fun _ => false) cfg
          st).1.events := by
  cases hgrps : groupOverlappingEvents
      ((loadEventsInvolving st.events userId).filter fun e =>
        decide (e.status ≠ EventStatus.CANCELED)) userId with
  | nil =>
      exfalso
      rw [hgrps] at hgroups
      simp at hgroups
  | cons g0 gs =>
      obtain ⟨pre, post, hdec, hpre, hpost⟩ := selectLargest_spec gs g0
      have hSmem : selectLargest g0 gs ∈ groupOverlappingEvents
          ((loadEventsInvolving st.events userId).filter fun e =>
            decide (e.status ≠ EventStatus.CANCELED)) userId := by
        rw [hgrps, hdec]
        exact List.mem_append.mpr (Or.inr (List.mem_cons_self _ _))
      have hSlen := groups_two_le _ userId _ hSmem
      have hSsub := groups_subset _ userId _ hSmem
      have hperm := sortedByStart_perm (selectLargest g0 gs)
      cases hsort : sortedByStart (selectLargest g0 gs) with
      | nil =>
          exfalso
          have hlen := hperm.length_eq
          rw [hsort] at hlen
          simp at hlen
          omega
      | cons first rest =>
          have hm : mergeEvents (selectLargest g0 gs) =
              some (mergeSorted first rest) := by
            simp [mergeEvents, hsort]
          have hsel : mergeAllSelect true userId
              (loadEventsInvolving st.events userId) =
              Except.ok (selectLargest g0 gs) := by
            simp only [mergeAllSelect]
            rw [if_neg (by simp), if_neg (by omega), if_neg (by omega),
              hgrps]
          have hpersist : persistMerge (fun _ => false) newId auditId userId
              (selectLargest g0 gs) (mergeSorted first rest) st =
              (⟨(st.events ++
                  [eventOfDraft newId (mergeSorted first rest)]).filter
                  (fun e =>
                    !(((selectLargest g0 gs).map Event.id).contains e.id)),
                st.audits ++ [⟨auditId, userId, newId,
                  (selectLargest g0 gs).map Event.id, none⟩]⟩, none) := by
            simp [persistMerge]
          have hrunEvents : (mergeAll true userId newId auditId
              (fun _ => false) cfg st).1.events =
              (st.events ++
                [eventOfDraft newId (mergeSorted first rest)]).filter
                (fun e =>
                  !(((selectLargest g0 gs).map Event.id).contains e.id)) := by
            simp only [mergeAll, hsel, hm, hpersist]
            cases hnote : (summarizePhase cfg
                (selectLargest g0 gs).length).notes
            · rfl
            · rfl
          have hSids : ∀ i ∈ (selectLargest g0 gs).map Event.id,
              i ∈ st.events.map Event.id := by
            intro i hi
            obtain ⟨e, he, rfl⟩ := List.mem_map.mp hi
            have heM := hSsub e he
            have heL := (List.mem_filter.mp heM).1
            have heS := (List.mem_filter.mp heL).1
            exact List.mem_map_of_mem Event.id heS
          have hfreshS : newId ∉ (selectLargest g0 gs).map Event.id :=
            fun hmem => hfresh (hSids newId hmem)
          refine ⟨selectLargest g0 gs, pre, post, mergeSorted first rest,
            hdec, hpre, hpost, hsel, hm, ?_, ?_, ?_⟩
          · intro e he hid
            rw [hrunEvents]
            exact List.mem_filter.mpr
              ⟨List.mem_append.mpr (Or.inl he), notContainsIff.mpr hid⟩
          · intro e he
            rw [hrunEvents] at he
            obtain ⟨hein, hpred⟩ := List.mem_filter.mp he
            rcases List.mem_append.mp hein with h1 | h1
            · exact Or.inr ⟨h1, notContainsIff.mp hpred⟩
            · rcases List.mem_cons.mp h1 with heq | hfalse
              · exact Or.inl heq
              · cases hfalse
          · rw [hrunEvents]
            exact List.mem_filter.mpr
              ⟨List.mem_append.mpr (Or.inr (List.mem_cons_self _ _)),
               notContainsIff.mpr hfreshS⟩

/-- Event in the first (smaller) overlap cluster. -/
def evG1a : Event :=
  ⟨"e1", "Alpha", none, EventStatus.TODO, 0, 10, alice, [bob], none⟩

/-- Event in the first (smaller) overlap cluster. -/
def evG1b : Event :=
  ⟨"e2", "Beta", none, EventStatus.TODO, 5, 20, alice, [bob], none⟩

/-- Event in the second (larger) overlap cluster. -/
def evG2a : Event :=
  ⟨"e3", "Gamma", none, EventStatus.TODO, 100, 110, alice, [bob], none⟩

/-- Event in the second (larger) overlap cluster. -/
def evG2b : Event :=
  ⟨"e4", "Delta", none, EventStatus.TODO, 105, 120, alice, [bob], none⟩

/-- Event in the second (larger) overlap cluster, overlapping only the
previous one. -/
def evG2c : Event :=
  ⟨"e5", "Epsilon", none, EventStatus.TODO, 112, 130, alice, [bob], none⟩

/-- C4, witness at a concrete store with two disjoint groups of sizes 2
and 3. -/
theorem c4_largestGroupMerge_witness :
    ∃ (S : List Event) (pre post : List (List Event)) (m : MergedDraft),
      groupOverlappingEvents
          ((loadEventsInvolving
            (⟨[evG1a, evG1b, evG2a, evG2b, evG2c], []⟩ :
              PersistState).events "u1").filter fun e =>
            decide (e.status ≠ EventStatus.CANCELED)) "u1" =
        pre ++ S :: post ∧
      (∀ g ∈ pre, g.length < S.length) ∧
      (∀ g ∈ post, g.length ≤ S.length) ∧
      mergeAllSelect true "u1"
          (loadEventsInvolving
            (⟨[evG1a, evG1b, evG2a, evG2b, evG2c], []⟩ :
              PersistState).events "u1") =
        Except.ok S ∧
      mergeEvents S = some m ∧
      (∀ e ∈ (⟨[evG1a, evG1b, evG2a, evG2b, evG2c], []⟩ :
          PersistState).events, e.id ∉ S.map Event.id →
        e ∈ (mergeAll true "u1" "new-9" "a-9" (fun _ => false)
          ⟨false, false, false, false, ""⟩
          ⟨[evG1a, evG1b, evG2a, evG2b, evG2c], []⟩).1.events) ∧
      (∀ e ∈ (mergeAll true "u1" "new-9" "a-9" (fun _ => false)
          ⟨false, false, false, false, ""⟩
          ⟨[evG1a, evG1b, evG2a, evG2b, evG2c], []⟩).1.events,
        e = eventOfDraft "new-9" m ∨
          (e ∈ (⟨[evG1a, evG1b, evG2a, evG2b, evG2c], []⟩ :
            PersistState).events ∧ e.id ∉ S.map Event.id)) ∧
      eventOfDraft "new-9" m ∈
        (mergeAll true "u1" "new-9" "a-9" (fun _ => false)
          ⟨false, false, false, false, ""⟩
          ⟨[evG1a, evG1b, evG2a, evG2b, evG2c], []⟩).1.events :=
  c4_largestGroupMerge ⟨[evG1a, evG1b, evG2a, evG2b, evG2c], []⟩ "u1"
    "new-9" "a-9" ⟨false, false, false, false, ""⟩ (by decide) (by decide)
    (by decide) (by decide)

end EventCollab
